import Mathlib

/-!
# PMP access check (`src/pmp_check.c`)

A shallow embedding of `trailing_one_counter` and `access` from `pmp_check.c`.

* `uint8_t` / `uint64_t` values are natural numbers; every `uint64_t` addition
  or subtraction is written with an explicit `% 2 ^ 64`.
* The two arrays `pmpcfg` and `pmpaddr` are read functions `Nat → Nat`
  (`pmpcfg i` is `pmpcfg[i]`); only indices below `NUM_PMP` are ever read.
* `priv_mod` and `op` are characters, as in the C signature.
* The return value `0` is `Verdict.Allowed`, `1` is `Verdict.Fault`.
* `1ULL << k` is defined by C only for `k < 64`.  What it does beyond that is
  the parameter `ub` of the embedding: `undefinedShift` (no result, the
  evaluation stops with `none`) or `yields w` (the shift produces the word
  `w k`, as a compiled program does).
-/

namespace PmpCheck

/-- The constant `NUM_PMP` of the source. -/
def NUM_PMP : Nat := 64

/-- The value returned by `access`: `0` (allowed) or `1` (access fault). -/
inductive Verdict where
  | Allowed
  | Fault
  deriving DecidableEq

/-- Privilege modes accepted by `main`: the characters M, S and U. -/
inductive Priv where
  | M
  | S
  | U
  deriving DecidableEq

/-- Operations accepted by `main`: the characters R, W and X. -/
inductive Op where
  | R
  | W
  | X
  deriving DecidableEq

/-- The character `main` passes to `access` for a privilege mode. -/
def Priv.toChar : Priv → Char
  | .M => 'M'
  | .S => 'S'
  | .U => 'U'

/-- The character `main` passes to `access` for an operation. -/
def Op.toChar : Op → Char
  | .R => 'R'
  | .W => 'W'
  | .X => 'X'

/-- Position in the configuration byte of the permission bit of an operation
(`r` is bit 0, `w` is bit 1, `x` is bit 2). -/
def Op.bit : Op → Nat
  | .R => 0
  | .W => 1
  | .X => 2

/-- The `while (value & 1ULL) { count++; value >>= 1; }` loop of
`trailing_one_counter`; the first argument bounds the number of iterations. -/
def tocLoop : Nat → Nat → Nat → Nat
  | 0, _, count => count
  | fuel + 1, value, count =>
    if value &&& 1 ≠ 0 then tocLoop fuel (value >>> 1) (count + 1) else count

/-- The function `trailing_one_counter`.  A `uint64_t` is zero after 64 right
shifts, so 64 iterations exhaust the loop. -/
def trailing_one_counter (value : Nat) : Nat := tocLoop 64 value 0

/-- No result for a shift count of 64 or more: the reading of ISO C. -/
def undefinedShift : Nat → Option Nat := fun _ => none

/-- A shift count `k` of 64 or more produces the 64-bit word `w k`. -/
def yields (w : Nat → Nat) : Nat → Option Nat := fun k => some (w k % 2 ^ 64)

/-- The expression `1ULL << k`. -/
def shl1 (ub : Nat → Option Nat) (k : Nat) : Option Nat :=
  if k < 64 then some (2 ^ k) else ub k

/-- The addressing mode `A = (cfg >> 3) & 0x3`. -/
def modeOf (cfg : Nat) : Nat := (cfg >>> 3) &&& 3

/-- Lines 68-85 of `access`: `(region_start, region_end)` of an enabled entry
with addressing mode `A` and address word `addr_i`, given `prev_addr`. -/
def region (ub : Nat → Option Nat) (A addr_i prev_addr : Nat) : Option (Nat × Nat) :=
  if A = 1 then some (prev_addr, addr_i)
  else if A = 2 then some (addr_i, (addr_i + 4) % 2 ^ 64)
  else if A = 3 then
    let n := trailing_one_counter addr_i
    match shl1 ub (n + 3) with
    | none => none
    | some region_size =>
      let base := addr_i &&& (2 ^ 64 - 1 - (region_size + 2 ^ 64 - 1) % 2 ^ 64)
      some (base, (base + region_size) % 2 ^ 64)
  else some (0, 0)

/-- Lines 92-114 of `access`: the value of `permit` for a matching entry. -/
def permit (cfg : Nat) (priv_mod op : Char) : Bool :=
  let r := (cfg >>> 0) &&& 1
  let w := (cfg >>> 1) &&& 1
  let x := (cfg >>> 2) &&& 1
  let locked := (cfg >>> 7) &&& 1
  if locked ≠ 0 then
    if op = 'R' ∧ r ≠ 0 then true
    else if op = 'W' ∧ w ≠ 0 then true
    else if op = 'X' ∧ x ≠ 0 then true
    else false
  else if priv_mod = 'M' then true
  else if op = 'R' ∧ r ≠ 0 then true
  else if op = 'W' ∧ w ≠ 0 then true
  else if op = 'X' ∧ x ≠ 0 then true
  else false

/-- The `for` loop of `access` followed by the code after it.  The first
argument is the number of iterations left (`NUM_PMP - i`). -/
def accessLoop (ub : Nat → Option Nat) (pmpcfg pmpaddr : Nat → Nat) (phys_addr : Nat)
    (priv_mod op : Char) : Nat → Nat → Nat → Bool → Option Verdict
  | 0, _, _, anyPMPEnabled =>
    if priv_mod = 'M' then some Verdict.Allowed
    else if anyPMPEnabled then some Verdict.Fault else some Verdict.Allowed
  | left + 1, i, prev_addr, anyPMPEnabled =>
    let cfg := pmpcfg i
    let A := modeOf cfg
    if A = 0 then
      accessLoop ub pmpcfg pmpaddr phys_addr priv_mod op left (i + 1) prev_addr anyPMPEnabled
    else
      match region ub A (pmpaddr i) prev_addr with
      | none => none
      | some (region_start, region_end) =>
        if phys_addr ≥ region_start ∧ phys_addr < region_end then
          if permit cfg priv_mod op then some Verdict.Allowed else some Verdict.Fault
        else
          accessLoop ub pmpcfg pmpaddr phys_addr priv_mod op left (i + 1) (pmpaddr i) true

/-- The function `access`. -/
def access (ub : Nat → Option Nat) (pmpcfg pmpaddr : Nat → Nat) (phys_addr : Nat)
    (priv_mod op : Char) : Option Verdict :=
  accessLoop ub pmpcfg pmpaddr phys_addr priv_mod op NUM_PMP 0 0 false

/-- The value of `prev_addr` when the loop reaches entry `i` (no earlier entry
having matched): line 55 sets it to 0, a disabled entry leaves it unchanged
(lines 63-65), an enabled entry stores its address word (line 87). -/
def prevAddrAt (pmpcfg pmpaddr : Nat → Nat) : Nat → Nat
  | 0 => 0
  | i + 1 => if modeOf (pmpcfg i) = 0 then prevAddrAt pmpcfg pmpaddr i else pmpaddr i

/-- The value of `anyPMPEnabled` when the loop reaches entry `i`. -/
def anyEnabledAt (pmpcfg : Nat → Nat) : Nat → Bool
  | 0 => false
  | i + 1 => if modeOf (pmpcfg i) = 0 then anyEnabledAt pmpcfg i else true

/-- The region `access` computes for entry `i` when the loop reaches it. -/
def regionAt (ub : Nat → Option Nat) (pmpcfg pmpaddr : Nat → Nat) (i : Nat) :
    Option (Nat × Nat) :=
  region ub (modeOf (pmpcfg i)) (pmpaddr i) (prevAddrAt pmpcfg pmpaddr i)

/-- Entry `i` is enabled and its computed region contains `phys_addr`. -/
def matchesAt (ub : Nat → Option Nat) (pmpcfg pmpaddr : Nat → Nat) (phys_addr i : Nat) : Bool :=
  modeOf (pmpcfg i) ≠ 0 &&
    match regionAt ub pmpcfg pmpaddr i with
    | some (region_start, region_end) => phys_addr ≥ region_start && phys_addr < region_end
    | none => false

/-- Entry `i` is passed over by the loop: it is disabled, or its region is
computed and does not contain `phys_addr`. -/
def missesAt (ub : Nat → Option Nat) (pmpcfg pmpaddr : Nat → Nat) (phys_addr i : Nat) : Bool :=
  modeOf (pmpcfg i) = 0 ||
    match regionAt ub pmpcfg pmpaddr i with
    | some (region_start, region_end) => !(phys_addr ≥ region_start && phys_addr < region_end)
    | none => false

/-- A table given by its first entries; the remaining entries are zero
(disabled, address word 0). -/
def tableOf (l : List Nat) : Nat → Nat := fun i => l.getD i 0

/-- Entry `i` is the first matching entry: it is the least index below
`NUM_PMP` of an enabled entry whose computed region contains `phys_addr`. -/
def FirstMatch (ub : Nat → Option Nat) (pmpcfg pmpaddr : Nat → Nat) (phys_addr i : Nat) : Prop :=
  i < NUM_PMP ∧ matchesAt ub pmpcfg pmpaddr phys_addr i = true ∧
    ∀ j, j < i → matchesAt ub pmpcfg pmpaddr phys_addr j = false

instance (ub : Nat → Option Nat) (pmpcfg pmpaddr : Nat → Nat) (phys_addr i : Nat) :
    Decidable (FirstMatch ub pmpcfg pmpaddr phys_addr i) := by
  unfold FirstMatch
  infer_instance

/-- The loop variables `(prev_addr, anyPMPEnabled)` at the top of iteration
`i` of the `for` loop of `access`, or `none` when the loop does not reach
iteration `i`: an earlier entry matched and `access` returned, or an earlier
shift had no result. -/
def loopStateAt (ub : Nat → Option Nat) (pmpcfg pmpaddr : Nat → Nat) (phys_addr : Nat) :
    Nat → Option (Nat × Bool)
  | 0 => some (0, false)
  | i + 1 =>
    match loopStateAt ub pmpcfg pmpaddr phys_addr i with
    | none => none
    | some (prev_addr, anyPMPEnabled) =>
      if modeOf (pmpcfg i) = 0 then some (prev_addr, anyPMPEnabled)
      else
        match region ub (modeOf (pmpcfg i)) (pmpaddr i) prev_addr with
        | none => none
        | some (region_start, region_end) =>
          if phys_addr ≥ region_start ∧ phys_addr < region_end then none
          else some (pmpaddr i, true)

/-! ## Reading the configuration byte -/

theorem shr_and_one_ne_zero_iff (c k : Nat) : ((c >>> k) &&& 1 ≠ 0) ↔ c.testBit k = true := by
  simp [Nat.testBit, Nat.and_comm]

theorem and_one_ne_zero_iff (v : Nat) : (v &&& 1 ≠ 0) ↔ v.testBit 0 = true := by
  have h := shr_and_one_ne_zero_iff v 0
  rwa [Nat.shiftRight_zero] at h

theorem modeOf_eq (c : Nat) : modeOf c = c / 8 % 4 := by
  unfold modeOf
  rw [Nat.shiftRight_eq_div_pow]
  exact Nat.and_pow_two_sub_one_eq_mod (c / 2 ^ 3) 2

theorem modeOf_lt (c : Nat) : modeOf c < 4 := by
  rw [modeOf_eq]; omega

theorem modeOf_eq_zero_iff (c : Nat) :
    modeOf c = 0 ↔ (c.testBit 3 = false ∧ c.testBit 4 = false) := by
  rw [modeOf_eq]
  simp only [Nat.testBit_to_div_mod]
  simp
  omega

/-- The value of `permit`, read off the bits of the configuration byte. -/
theorem permit_eq (c : Nat) (p : Priv) (o : Op) :
    permit c p.toChar o.toChar =
      if c.testBit 7 then c.testBit o.bit else (decide (p = Priv.M) || c.testBit o.bit) := by
  have h0 := shr_and_one_ne_zero_iff c 0
  have h1 := shr_and_one_ne_zero_iff c 1
  have h2 := shr_and_one_ne_zero_iff c 2
  have h7 := shr_and_one_ne_zero_iff c 7
  unfold permit
  simp only [h0, h1, h2, h7]
  cases p <;> cases o <;> simp [Priv.toChar, Op.toChar, Op.bit]

/-! ## The scan -/

/-- With a word-valued shift every region is computed. -/
theorem region_yields_isSome (w : Nat → Nat) (A addr_i prev_addr : Nat) :
    ∃ r, region (yields w) A addr_i prev_addr = some r := by
  unfold region shl1 yields
  split
  · exact ⟨_, rfl⟩
  · split
    · exact ⟨_, rfl⟩
    · split
      · by_cases hk : trailing_one_counter addr_i + 3 < 64
        · simp only [hk, if_true]
          exact ⟨_, rfl⟩
        · simp only [hk, if_false]
          exact ⟨_, rfl⟩
      · exact ⟨_, rfl⟩

theorem missesAt_of_not_matchesAt (w : Nat → Nat) (pmpcfg pmpaddr : Nat → Nat) (a i : Nat)
    (h : matchesAt (yields w) pmpcfg pmpaddr a i = false) :
    missesAt (yields w) pmpcfg pmpaddr a i = true := by
  obtain ⟨⟨s, e⟩, hr⟩ := region_yields_isSome w (modeOf (pmpcfg i)) (pmpaddr i)
    (prevAddrAt pmpcfg pmpaddr i)
  unfold matchesAt at h
  unfold missesAt
  simp only [regionAt, hr] at h ⊢
  by_cases hm : modeOf (pmpcfg i) = 0
  · simp [hm]
  · simp [hm] at h ⊢
    by_cases hs : s ≤ a
    · exact Or.inr (h hs)
    · exact Or.inl (by omega)

/-- One iteration of the loop at an entry that is passed over. -/
theorem accessLoop_step (ub : Nat → Option Nat) (pmpcfg pmpaddr : Nat → Nat) (a : Nat)
    (priv_mod op : Char) (left i : Nat) (h : missesAt ub pmpcfg pmpaddr a i = true) :
    accessLoop ub pmpcfg pmpaddr a priv_mod op (left + 1) i
        (prevAddrAt pmpcfg pmpaddr i) (anyEnabledAt pmpcfg i) =
      accessLoop ub pmpcfg pmpaddr a priv_mod op left (i + 1)
        (prevAddrAt pmpcfg pmpaddr (i + 1)) (anyEnabledAt pmpcfg (i + 1)) := by
  unfold missesAt regionAt at h
  rw [accessLoop]
  simp only [prevAddrAt, anyEnabledAt]
  by_cases hm : modeOf (pmpcfg i) = 0
  · simp [hm]
  · simp only [hm, decide_False, Bool.false_or, if_false] at h ⊢
    cases hr : region ub (modeOf (pmpcfg i)) (pmpaddr i) (prevAddrAt pmpcfg pmpaddr i) with
    | none => simp [hr] at h
    | some r =>
      obtain ⟨s, e⟩ := r
      simp only [hr] at h ⊢
      have hn : ¬ (a ≥ s ∧ a < e) := by
        simp at h
        omega
      simp only [hn, if_false]

/-- While every entry so far is passed over, the loop state is the one
described by `prevAddrAt` and `anyEnabledAt`. -/
theorem access_eq_accessLoop (ub : Nat → Option Nat) (pmpcfg pmpaddr : Nat → Nat) (a : Nat)
    (priv_mod op : Char) (i : Nat) (hi : i ≤ NUM_PMP)
    (h : ∀ j, j < i → missesAt ub pmpcfg pmpaddr a j = true) :
    access ub pmpcfg pmpaddr a priv_mod op =
      accessLoop ub pmpcfg pmpaddr a priv_mod op (NUM_PMP - i) i
        (prevAddrAt pmpcfg pmpaddr i) (anyEnabledAt pmpcfg i) := by
  induction i with
  | zero => rfl
  | succ i ih =>
    rw [ih (by omega) (fun j hj => h j (by omega))]
    have : NUM_PMP - i = (NUM_PMP - (i + 1)) + 1 := by omega
    rw [this]
    exact accessLoop_step ub pmpcfg pmpaddr a priv_mod op _ i (h i (by omega))

/-- The verdict at the first entry whose region contains the address. -/
theorem access_of_first_match (ub : Nat → Option Nat) (pmpcfg pmpaddr : Nat → Nat) (a : Nat)
    (priv_mod op : Char) (i : Nat) (hi : i < NUM_PMP)
    (hmiss : ∀ j, j < i → missesAt ub pmpcfg pmpaddr a j = true)
    (hmatch : matchesAt ub pmpcfg pmpaddr a i = true) :
    access ub pmpcfg pmpaddr a priv_mod op =
      some (if permit (pmpcfg i) priv_mod op then Verdict.Allowed else Verdict.Fault) := by
  rw [access_eq_accessLoop ub pmpcfg pmpaddr a priv_mod op i (by omega) hmiss]
  have : NUM_PMP - i = (NUM_PMP - (i + 1)) + 1 := by omega
  rw [this, accessLoop]
  unfold matchesAt regionAt at hmatch
  by_cases hm : modeOf (pmpcfg i) = 0
  · simp [hm] at hmatch
  · cases hr : region ub (modeOf (pmpcfg i)) (pmpaddr i) (prevAddrAt pmpcfg pmpaddr i) with
    | none => simp [hr] at hmatch
    | some r =>
      obtain ⟨s, e⟩ := r
      simp only [hr] at hmatch
      have hin : a ≥ s ∧ a < e := by
        simpa [hm] using hmatch
      simp only [hm, if_false, hr, hin, and_self, if_true]
      split <;> rfl

/-- The verdict when every entry is passed over. -/
theorem access_of_no_match (ub : Nat → Option Nat) (pmpcfg pmpaddr : Nat → Nat) (a : Nat)
    (priv_mod op : Char)
    (hmiss : ∀ j, j < NUM_PMP → missesAt ub pmpcfg pmpaddr a j = true) :
    access ub pmpcfg pmpaddr a priv_mod op =
      if priv_mod = 'M' then some Verdict.Allowed
      else if anyEnabledAt pmpcfg NUM_PMP then some Verdict.Fault else some Verdict.Allowed := by
  rw [access_eq_accessLoop ub pmpcfg pmpaddr a priv_mod op NUM_PMP (le_refl _) hmiss]
  simp [accessLoop]

theorem anyEnabledAt_eq_true_iff (pmpcfg : Nat → Nat) (n : Nat) :
    anyEnabledAt pmpcfg n = true ↔ ∃ i, i < n ∧ modeOf (pmpcfg i) ≠ 0 := by
  induction n with
  | zero => simp [anyEnabledAt]
  | succ n ih =>
    simp only [anyEnabledAt]
    by_cases hm : modeOf (pmpcfg n) = 0
    · simp only [hm, if_true, ih]
      constructor
      · rintro ⟨i, hi, h⟩
        exact ⟨i, by omega, h⟩
      · rintro ⟨i, hi, h⟩
        have : i ≠ n := fun e => h (e ▸ hm)
        exact ⟨i, by omega, h⟩
    · simp only [hm, if_false, true_iff]
      exact ⟨n, by omega, hm⟩

/-- The verdict at the first matching entry, for a word-valued shift. -/
theorem access_of_FirstMatch (w : Nat → Nat) (pmpcfg pmpaddr : Nat → Nat) (a : Nat)
    (p : Priv) (o : Op) (i : Nat) (h : FirstMatch (yields w) pmpcfg pmpaddr a i) :
    access (yields w) pmpcfg pmpaddr a p.toChar o.toChar =
      some (if (if (pmpcfg i).testBit 7 then (pmpcfg i).testBit o.bit
                else (decide (p = Priv.M) || (pmpcfg i).testBit o.bit)) = true
            then Verdict.Allowed else Verdict.Fault) := by
  obtain ⟨hi, hmatch, hleast⟩ := h
  rw [access_of_first_match (yields w) pmpcfg pmpaddr a p.toChar o.toChar i hi
    (fun j hj => missesAt_of_not_matchesAt w pmpcfg pmpaddr a j (hleast j hj)) hmatch,
    permit_eq]

/-! ## Region arithmetic -/

theorem tocLoop_eq (fuel : Nat) : ∀ (value count n : Nat), n < fuel →
    (∀ j, j < n → value.testBit j = true) → value.testBit n = false →
    tocLoop fuel value count = count + n := by
  induction fuel with
  | zero => intro value count n hn; omega
  | succ fuel ih =>
    intro value count n hn hones hzero
    rw [tocLoop]
    cases n with
    | zero =>
      have h0 : ¬ (value &&& 1 ≠ 0) := by
        rw [and_one_ne_zero_iff, hzero]
        simp
      rw [if_neg h0]
      rfl
    | succ m =>
      have h0 : value &&& 1 ≠ 0 :=
        (and_one_ne_zero_iff value).2 (hones 0 (by omega))
      rw [if_pos h0]
      rw [ih (value >>> 1) (count + 1) m (by omega)]
      · omega
      · intro j hj
        rw [Nat.testBit_shiftRight, Nat.add_comm]
        exact hones (j + 1) (by omega)
      · rw [Nat.testBit_shiftRight, Nat.add_comm]
        exact hzero

/-- Iterations beyond the width of the word change nothing: on a value below
`2 ^ fuel` the loop has ended within `fuel` iterations. -/
theorem tocLoop_add_fuel (fuel k : Nat) : ∀ (value count : Nat), value < 2 ^ fuel →
    tocLoop (fuel + k) value count = tocLoop fuel value count := by
  induction fuel with
  | zero =>
    intro value count hv
    have hv0 : value = 0 := by simpa using hv
    subst hv0
    cases k with
    | zero => rfl
    | succ k =>
      rw [Nat.zero_add, tocLoop, tocLoop]
      simp
  | succ fuel ih =>
    intro value count hv
    have hk : fuel + 1 + k = (fuel + k) + 1 := by omega
    rw [hk, tocLoop, tocLoop]
    have hs : value >>> 1 < 2 ^ fuel := by
      rw [Nat.shiftRight_eq_div_pow, pow_one]
      rw [pow_succ] at hv
      omega
    rw [ih (value >>> 1) (count + 1) hs]

/-- The counter returns `n` on a word whose bits `0 .. n-1` are set and whose
bit `n` is clear. -/
theorem trailing_one_counter_eq (value n : Nat) (hn : n < 64)
    (hones : ∀ j, j < n → value.testBit j = true) (hzero : value.testBit n = false) :
    trailing_one_counter value = n := by
  unfold trailing_one_counter
  rw [tocLoop_eq 64 value 0 n hn hones hzero]
  omega

/-- The mask `~(region_size - 1)` clears the low `k` bits of a 64-bit word. -/
theorem and_not_mask (x k : Nat) (hx : x < 2 ^ 64) (hk : k < 64) :
    x &&& (2 ^ 64 - 1 - (2 ^ k + 2 ^ 64 - 1) % 2 ^ 64) = x - x % 2 ^ k := by
  have hpos : 0 < 2 ^ k := Nat.two_pow_pos k
  have hlt : 2 ^ k < 2 ^ 64 := Nat.pow_lt_pow_right (by decide) hk
  have h1 : (2 ^ k + 2 ^ 64 - 1) % 2 ^ 64 = 2 ^ k - 1 := by
    have : 2 ^ k + 2 ^ 64 - 1 = (2 ^ k - 1) + 2 ^ 64 := by omega
    rw [this, Nat.add_mod_right, Nat.mod_eq_of_lt (by omega)]
  have h2 : 2 ^ 64 - 1 - (2 ^ k - 1) = 2 ^ 64 - ((2 ^ k - 1) + 1) := by omega
  have h3 : x - x % 2 ^ k = 2 ^ k * (x / 2 ^ k) := by
    have := Nat.div_add_mod x (2 ^ k)
    omega
  rw [h1, h2, h3]
  apply Nat.eq_of_testBit_eq
  intro j
  rw [Nat.testBit_and, Nat.testBit_two_pow_sub_succ (by omega), Nat.testBit_two_pow_sub_one,
    Nat.testBit_mul_pow_two, ← Nat.shiftRight_eq_div_pow, Nat.testBit_shiftRight]
  by_cases hj : j < 64
  · by_cases hjk : j < k
    · simp [hj, hjk]
    · have : k + (j - k) = j := by omega
      simp [hj, hjk, this]
      intro _
      omega
  · have hxj : x.testBit j = false :=
      Nat.testBit_lt_two_pow (lt_of_lt_of_le hx (Nat.pow_le_pow_right (by decide) (by omega)))
    have hxj2 : x.testBit (k + (j - k)) = false := by
      have : k + (j - k) = j := by omega
      rw [this]; exact hxj
    simp [hj, hxj, hxj2]

/-- The base of a region of size `2 ^ k` leaves room for the region below
`2 ^ 64`: the sum `base + 2 ^ k` is at most `2 ^ 64`. -/
theorem base_add_size_le (x k : Nat) (hx : x < 2 ^ 64) (hk : k < 64) :
    x - x % 2 ^ k + 2 ^ k ≤ 2 ^ 64 := by
  have hpos : 0 < 2 ^ k := Nat.two_pow_pos k
  have h3 : x - x % 2 ^ k = 2 ^ k * (x / 2 ^ k) := by
    have := Nat.div_add_mod x (2 ^ k)
    omega
  have hsplit : (2 : Nat) ^ 64 = 2 ^ k * 2 ^ (64 - k) := by
    rw [← Nat.pow_add]
    congr 1
    omega
  have hdiv : x / 2 ^ k < 2 ^ (64 - k) := by
    apply Nat.div_lt_of_lt_mul
    rw [← hsplit]
    exact hx
  rw [h3, hsplit]
  calc 2 ^ k * (x / 2 ^ k) + 2 ^ k = 2 ^ k * (x / 2 ^ k + 1) := by ring
    _ ≤ 2 ^ k * 2 ^ (64 - k) := Nat.mul_le_mul_left _ hdiv

/-- The region computed for a NAPOT address word with `n` trailing ones,
`n + 3 < 64`. -/
theorem region_napot (ub : Nat → Option Nat) (addr_i prev_addr n : Nat)
    (haddr : addr_i < 2 ^ 64) (hn : n + 3 < 64)
    (hones : ∀ j, j < n → addr_i.testBit j = true) (hzero : addr_i.testBit n = false) :
    region ub 3 addr_i prev_addr =
      some (addr_i - addr_i % 2 ^ (n + 3),
        (addr_i - addr_i % 2 ^ (n + 3) + 2 ^ (n + 3)) % 2 ^ 64) := by
  have hc := trailing_one_counter_eq addr_i n (by omega) hones hzero
  unfold region shl1
  simp only [hc, hn, if_true]
  rw [and_not_mask addr_i (n + 3) haddr hn]
  simp

/-! ## The claims -/

/-- C1. First-match priority: when some enabled entry's computed region
contains the address and `i` is the least index of such an entry, the verdict
is the one of entry `i`'s own rule: allowed iff the entry is locked and the
operation's bit is set, or it is unlocked and the privilege is Machine or the
operation's bit is set.  Later entries play no part.  This holds whatever word
a shift by 64 or more yields. -/
theorem first_match_priority (w : Nat → Nat) (pmpcfg pmpaddr : Nat → Nat) (a : Nat)
    (p : Priv) (o : Op) (i : Nat) (h : FirstMatch (yields w) pmpcfg pmpaddr a i) :
    access (yields w) pmpcfg pmpaddr a p.toChar o.toChar =
      some (if ((pmpcfg i).testBit 7 = true ∧ (pmpcfg i).testBit o.bit = true) ∨
               ((pmpcfg i).testBit 7 = false ∧
                 (p = Priv.M ∨ (pmpcfg i).testBit o.bit = true))
            then Verdict.Allowed else Verdict.Fault) := by
  rw [access_of_FirstMatch w pmpcfg pmpaddr a p o i h]
  cases (pmpcfg i).testBit 7 <;> cases (pmpcfg i).testBit o.bit <;> cases p <;> simp

/-- Entries 0 (NA4, unlocked, read only) and 1 (NAPOT, locked, rwx) both
contain 0x2000; a User write gets entry 0's verdict, a fault. -/
theorem first_match_priority_witness :
    FirstMatch (yields fun _ => 0) (tableOf [0x11, 0x9F]) (tableOf [0x2000, 0x2007]) 0x2000 0 ∧
    matchesAt (yields fun _ => 0) (tableOf [0x11, 0x9F]) (tableOf [0x2000, 0x2007]) 0x2000 1
      = true ∧
    access (yields fun _ => 0) (tableOf [0x11, 0x9F]) (tableOf [0x2000, 0x2007]) 0x2000
      Priv.U.toChar Op.W.toChar = some Verdict.Fault :=
  ⟨by decide, by decide,
   first_match_priority (fun _ => 0) (tableOf [0x11, 0x9F]) (tableOf [0x2000, 0x2007]) 0x2000
     Priv.U Op.W 0 (by decide)⟩

/-- C4. Locked entries are enforced uniformly: when the first matching entry
`i` has bit 7 of its configuration byte set, the verdict is Allowed if the bit
of the operation (R bit 0, W bit 1, X bit 2) is set and Fault otherwise, for
Machine, Supervisor and User alike. -/
theorem locked_entry_uniform (w : Nat → Nat) (pmpcfg pmpaddr : Nat → Nat) (a : Nat)
    (p : Priv) (o : Op) (i : Nat) (h : FirstMatch (yields w) pmpcfg pmpaddr a i)
    (hlocked : (pmpcfg i).testBit 7 = true) :
    access (yields w) pmpcfg pmpaddr a p.toChar o.toChar =
      some (if (pmpcfg i).testBit o.bit = true then Verdict.Allowed else Verdict.Fault) := by
  rw [access_of_FirstMatch w pmpcfg pmpaddr a p o i h]
  simp [hlocked]

/-- A locked NA4 entry with only the read bit (0x91): a Machine write faults. -/
theorem locked_entry_uniform_witness :
    FirstMatch (yields fun _ => 0) (tableOf [0x91]) (tableOf [0x2000]) 0x2000 0 ∧
    (tableOf [0x91] 0).testBit 7 = true ∧
    access (yields fun _ => 0) (tableOf [0x91]) (tableOf [0x2000]) 0x2000
      Priv.M.toChar Op.W.toChar = some Verdict.Fault :=
  ⟨by decide, by decide,
   locked_entry_uniform (fun _ => 0) (tableOf [0x91]) (tableOf [0x2000]) 0x2000
     Priv.M Op.W 0 (by decide) (by decide)⟩

/-- C5. Machine-mode bypass: when the first matching entry is unlocked (bit 7
clear) a Machine query is Allowed, whatever the entry's r/w/x bits. -/
theorem machine_bypass_unlocked (w : Nat → Nat) (pmpcfg pmpaddr : Nat → Nat) (a : Nat)
    (o : Op) (i : Nat) (h : FirstMatch (yields w) pmpcfg pmpaddr a i)
    (hunlocked : (pmpcfg i).testBit 7 = false) :
    access (yields w) pmpcfg pmpaddr a Priv.M.toChar o.toChar = some Verdict.Allowed := by
  rw [access_of_FirstMatch w pmpcfg pmpaddr a Priv.M o i h]
  simp [hunlocked]

/-- An unlocked NA4 entry without any permission bit (0x10): a Machine
execute is allowed. -/
theorem machine_bypass_unlocked_witness :
    FirstMatch (yields fun _ => 0) (tableOf [0x10]) (tableOf [0x2000]) 0x2003 0 ∧
    (tableOf [0x10] 0).testBit 7 = false ∧
    access (yields fun _ => 0) (tableOf [0x10]) (tableOf [0x2000]) 0x2003
      Priv.M.toChar Op.X.toChar = some Verdict.Allowed :=
  ⟨by decide, by decide,
   machine_bypass_unlocked (fun _ => 0) (tableOf [0x10]) (tableOf [0x2000]) 0x2003
     Op.X 0 (by decide) (by decide)⟩

/-- C6. Unlocked entries bind Supervisor and User: when the first matching
entry is unlocked and the privilege is Supervisor or User, the verdict is
Allowed if the operation's bit is set and Fault otherwise. -/
theorem unlocked_binds_supervisor_user (w : Nat → Nat) (pmpcfg pmpaddr : Nat → Nat) (a : Nat)
    (p : Priv) (o : Op) (i : Nat) (h : FirstMatch (yields w) pmpcfg pmpaddr a i)
    (hunlocked : (pmpcfg i).testBit 7 = false) (hp : p = Priv.S ∨ p = Priv.U) :
    access (yields w) pmpcfg pmpaddr a p.toChar o.toChar =
      some (if (pmpcfg i).testBit o.bit = true then Verdict.Allowed else Verdict.Fault) := by
  rw [access_of_FirstMatch w pmpcfg pmpaddr a p o i h]
  rcases hp with rfl | rfl <;> simp [hunlocked]

/-- The scenario of the specification: an unlocked NA4 entry at 0x2000 with
only the read bit (0x11); a User write at 0x2000 faults, the same query in
Machine mode is allowed. -/
theorem unlocked_binds_supervisor_user_witness :
    FirstMatch (yields fun _ => 0) (tableOf [0x11]) (tableOf [0x2000]) 0x2000 0 ∧
    (tableOf [0x11] 0).testBit 7 = false ∧
    access (yields fun _ => 0) (tableOf [0x11]) (tableOf [0x2000]) 0x2000
      Priv.U.toChar Op.W.toChar = some Verdict.Fault ∧
    access (yields fun _ => 0) (tableOf [0x11]) (tableOf [0x2000]) 0x2000
      Priv.M.toChar Op.W.toChar = some Verdict.Allowed :=
  ⟨by decide, by decide,
   unlocked_binds_supervisor_user (fun _ => 0) (tableOf [0x11]) (tableOf [0x2000]) 0x2000
     Priv.U Op.W 0 (by decide) (by decide) (Or.inr rfl),
   by decide⟩

/-- C7. No-match default: when no enabled entry's computed region contains
the address, a Machine query is Allowed; a Supervisor or User query faults if
some entry of the table has a non-disabled addressing mode and is Allowed if
every entry is disabled. -/
theorem no_match_default (w : Nat → Nat) (pmpcfg pmpaddr : Nat → Nat) (a : Nat)
    (p : Priv) (o : Op)
    (hnone : ∀ i, i < NUM_PMP → matchesAt (yields w) pmpcfg pmpaddr a i = false) :
    (p = Priv.M →
      access (yields w) pmpcfg pmpaddr a p.toChar o.toChar = some Verdict.Allowed) ∧
    (p ≠ Priv.M →
      ((∃ i, i < NUM_PMP ∧ modeOf (pmpcfg i) ≠ 0) →
        access (yields w) pmpcfg pmpaddr a p.toChar o.toChar = some Verdict.Fault) ∧
      ((∀ i, i < NUM_PMP → modeOf (pmpcfg i) = 0) →
        access (yields w) pmpcfg pmpaddr a p.toChar o.toChar = some Verdict.Allowed)) := by
  have hacc := access_of_no_match (yields w) pmpcfg pmpaddr a p.toChar o.toChar
    (fun j hj => missesAt_of_not_matchesAt w pmpcfg pmpaddr a j (hnone j hj))
  refine ⟨?_, fun hp => ⟨?_, ?_⟩⟩
  · rintro rfl
    rw [hacc]
    simp [Priv.toChar]
  · intro hex
    have hany : anyEnabledAt pmpcfg NUM_PMP = true :=
      (anyEnabledAt_eq_true_iff pmpcfg NUM_PMP).2 hex
    rw [hacc, hany]
    cases p <;> simp [Priv.toChar] at hp ⊢
  · intro hall
    have hany : anyEnabledAt pmpcfg NUM_PMP = false := by
      cases hb : anyEnabledAt pmpcfg NUM_PMP with
      | false => rfl
      | true =>
        obtain ⟨i, hi, hne⟩ := (anyEnabledAt_eq_true_iff pmpcfg NUM_PMP).1 hb
        exact absurd (hall i hi) hne
    rw [hacc, hany]
    cases p <;> simp [Priv.toChar]

/-- A single top-of-range entry covering `[0, 0x1000)`: the address 0x5000
matches no entry, so a User read faults and a Machine read is allowed. -/
theorem no_match_default_witness :
    (∀ i, i < NUM_PMP →
      matchesAt (yields fun _ => 0) (tableOf [0x0F]) (tableOf [0x1000]) 0x5000 i = false) ∧
    access (yields fun _ => 0) (tableOf [0x0F]) (tableOf [0x1000]) 0x5000
      Priv.U.toChar Op.R.toChar = some Verdict.Fault ∧
    access (yields fun _ => 0) (tableOf [0x0F]) (tableOf [0x1000]) 0x5000
      Priv.M.toChar Op.R.toChar = some Verdict.Allowed :=
  ⟨by decide,
   ((no_match_default (fun _ => 0) (tableOf [0x0F]) (tableOf [0x1000]) 0x5000 Priv.U Op.R
      (by decide)).2 (by decide)).1 ⟨0, by decide, by decide⟩,
   by decide⟩

/-- C8. A fully disabled table imposes no restriction: when bits 3 and 4 of
every configuration byte are clear, `access` returns Allowed for every
address, privilege and operation, whatever the other bits and the address
words are (and whatever a shift by 64 or more does: none is performed). -/
theorem all_disabled_allowed (ub : Nat → Option Nat) (pmpcfg pmpaddr : Nat → Nat) (a : Nat)
    (p : Priv) (o : Op)
    (hdis : ∀ i, i < NUM_PMP → (pmpcfg i).testBit 3 = false ∧ (pmpcfg i).testBit 4 = false) :
    access ub pmpcfg pmpaddr a p.toChar o.toChar = some Verdict.Allowed := by
  have hmode : ∀ i, i < NUM_PMP → modeOf (pmpcfg i) = 0 :=
    fun i hi => (modeOf_eq_zero_iff (pmpcfg i)).2 (hdis i hi)
  have hmiss : ∀ j, j < NUM_PMP → missesAt ub pmpcfg pmpaddr a j = true := by
    intro j hj
    simp [missesAt, hmode j hj]
  have hany : anyEnabledAt pmpcfg NUM_PMP = false := by
    cases hb : anyEnabledAt pmpcfg NUM_PMP with
    | false => rfl
    | true =>
      obtain ⟨i, hi, hne⟩ := (anyEnabledAt_eq_true_iff pmpcfg NUM_PMP).1 hb
      exact absurd (hmode i hi) hne
  rw [access_of_no_match ub pmpcfg pmpaddr a p.toChar o.toChar hmiss, hany]
  simp

/-- Every entry disabled, with other configuration bits and address words
set: a Supervisor write is allowed. -/
theorem all_disabled_allowed_witness :
    (∀ i, i < NUM_PMP → (tableOf [0x87, 0x07] i).testBit 3 = false ∧
      (tableOf [0x87, 0x07] i).testBit 4 = false) ∧
    access undefinedShift (tableOf [0x87, 0x07]) (tableOf [0xFFFFFFFFFFFFFFFF, 0x1000]) 0x800
      Priv.S.toChar Op.W.toChar = some Verdict.Allowed :=
  ⟨by decide,
   all_disabled_allowed undefinedShift (tableOf [0x87, 0x07])
     (tableOf [0xFFFFFFFFFFFFFFFF, 0x1000]) 0x800 Priv.S Op.W (by decide)⟩

/-- C2. The claim's shape evaluated on the code: entry 0 disabled with address
word 0x1000, entry 1 top-of-range (0x09: readable) with address word 0x2000.
The loop reaches entry 1 with `prev_addr = 0`, not 0x1000: the region tested
is `[0, 0x2000)`, the query 0x500 is matched by entry 1, and a User read is
allowed by it. -/
theorem tor_lower_bound_skips_disabled_entry :
    modeOf (tableOf [0x00, 0x09] 0) = 0 ∧ modeOf (tableOf [0x00, 0x09] 1) = 1 ∧
    prevAddrAt (tableOf [0x00, 0x09]) (tableOf [0x1000, 0x2000]) 1 = 0 ∧
    regionAt undefinedShift (tableOf [0x00, 0x09]) (tableOf [0x1000, 0x2000]) 1
      = some (0, 0x2000) ∧
    FirstMatch undefinedShift (tableOf [0x00, 0x09]) (tableOf [0x1000, 0x2000]) 0x500 1 ∧
    access undefinedShift (tableOf [0x00, 0x09]) (tableOf [0x1000, 0x2000]) 0x500
      Priv.U.toChar Op.R.toChar = some Verdict.Allowed := by
  decide

/-- C3, as stated, fails: for the NAPOT address word 0xFFFFFFFFFFFFFFF8
(no trailing one, size 8) the computed `region_end` is 0, not
`region_start + 8`. -/
theorem napot_region_end_not_sum :
    ¬ ∀ (ub : Nat → Option Nat) (pmpcfg pmpaddr : Nat → Nat) (i n : Nat),
      modeOf (pmpcfg i) = 3 → pmpaddr i < 2 ^ 64 → n + 3 < 64 →
      (∀ j, j < n → (pmpaddr i).testBit j = true) → (pmpaddr i).testBit n = false →
      regionAt ub pmpcfg pmpaddr i =
        some (pmpaddr i - pmpaddr i % 2 ^ (n + 3),
          pmpaddr i - pmpaddr i % 2 ^ (n + 3) + 2 ^ (n + 3)) := by
  intro h
  have h0 := h undefinedShift (tableOf [0x18]) (tableOf [0xFFFFFFFFFFFFFFF8]) 0 0
    (by decide) (by decide) (by decide) (fun j hj => absurd hj (Nat.not_lt_zero j)) (by decide)
  revert h0
  decide

/-- C3, amended. For an entry in NAPOT mode whose 64-bit address word has `n`
trailing one bits (bits `0 .. n-1` set, bit `n` clear) with `n + 3 < 64`, the
region computed has `region_start` = the address word with its low `n + 3`
bits cleared and `region_end = (region_start + 2 ^ (n + 3)) mod 2 ^ 64`: this
is `region_start + 2 ^ (n + 3)` when that sum is below `2 ^ 64`, and 0 when
the sum is `2 ^ 64`. -/
theorem napot_region_decoding (ub : Nat → Option Nat) (pmpcfg pmpaddr : Nat → Nat) (i n : Nat)
    (hmode : modeOf (pmpcfg i) = 3) (haddr : pmpaddr i < 2 ^ 64) (hn : n + 3 < 64)
    (hones : ∀ j, j < n → (pmpaddr i).testBit j = true)
    (hzero : (pmpaddr i).testBit n = false) :
    regionAt ub pmpcfg pmpaddr i =
      some (pmpaddr i - pmpaddr i % 2 ^ (n + 3),
        (pmpaddr i - pmpaddr i % 2 ^ (n + 3) + 2 ^ (n + 3)) % 2 ^ 64) ∧
    (pmpaddr i - pmpaddr i % 2 ^ (n + 3) + 2 ^ (n + 3) < 2 ^ 64 →
      regionAt ub pmpcfg pmpaddr i =
        some (pmpaddr i - pmpaddr i % 2 ^ (n + 3),
          pmpaddr i - pmpaddr i % 2 ^ (n + 3) + 2 ^ (n + 3))) ∧
    (¬ pmpaddr i - pmpaddr i % 2 ^ (n + 3) + 2 ^ (n + 3) < 2 ^ 64 →
      regionAt ub pmpcfg pmpaddr i = some (pmpaddr i - pmpaddr i % 2 ^ (n + 3), 0)) := by
  have hr : regionAt ub pmpcfg pmpaddr i =
      some (pmpaddr i - pmpaddr i % 2 ^ (n + 3),
        (pmpaddr i - pmpaddr i % 2 ^ (n + 3) + 2 ^ (n + 3)) % 2 ^ 64) := by
    unfold regionAt
    rw [hmode]
    exact region_napot ub (pmpaddr i) _ n haddr hn hones hzero
  have hle := base_add_size_le (pmpaddr i) (n + 3) haddr hn
  refine ⟨hr, fun hlt => ?_, fun hge => ?_⟩
  · rw [hr, Nat.mod_eq_of_lt hlt]
  · have heq : pmpaddr i - pmpaddr i % 2 ^ (n + 3) + 2 ^ (n + 3) = 2 ^ 64 := by omega
    rw [hr, heq, Nat.mod_self]

/-- The example of the specification: the address word 0x87 has 3 trailing
ones, the region is `[0x80, 0xC0)` of size 64. -/
theorem napot_region_decoding_witness :
    modeOf (tableOf [0x18] 0) = 3 ∧ tableOf [0x87] 0 < 2 ^ 64 ∧ 3 + 3 < 64 ∧
    (∀ j, j < 3 → (tableOf [0x87] 0).testBit j = true) ∧
    (tableOf [0x87] 0).testBit 3 = false ∧
    regionAt undefinedShift (tableOf [0x18]) (tableOf [0x87]) 0 = some (0x80, 0xC0) :=
  ⟨by decide, by decide, by decide, by decide, by decide,
   (napot_region_decoding undefinedShift (tableOf [0x18]) (tableOf [0x87]) 0 3
     (by decide) (by decide) (by decide) (by decide) (by decide)).1⟩

/-- C9, as stated, fails: the NA4 entry with address word 0xFFFFFFFFFFFFFFFF
has the computed `region_end` 3, and it does not match the query address
0xFFFFFFFFFFFFFFFF although `A0 ≤ a < A0 + 4`. -/
theorem na4_region_end_not_sum :
    ¬ ∀ (ub : Nat → Option Nat) (pmpcfg pmpaddr : Nat → Nat) (i a : Nat),
      modeOf (pmpcfg i) = 2 → pmpaddr i < 2 ^ 64 → a < 2 ^ 64 →
      regionAt ub pmpcfg pmpaddr i = some (pmpaddr i, pmpaddr i + 4) ∧
      (matchesAt ub pmpcfg pmpaddr a i = true ↔ (pmpaddr i ≤ a ∧ a < pmpaddr i + 4)) := by
  intro h
  have h0 := (h undefinedShift (tableOf [0x10]) (tableOf [0xFFFFFFFFFFFFFFFF]) 0
    0xFFFFFFFFFFFFFFFF (by decide) (by decide) (by decide)).2
  revert h0
  decide

/-- C9, amended. For an entry in NA4 mode with address word `A0` the region
computed is `region_start = A0`, `region_end = (A0 + 4) mod 2 ^ 64`, and the
entry matches exactly the query addresses `a` with `A0 ≤ a < (A0 + 4) mod
2 ^ 64`; when `A0 + 4 < 2 ^ 64` this is the region `[A0, A0 + 4)` and the
entry matches exactly the `a` with `A0 ≤ a < A0 + 4`. -/
theorem na4_region_decoding (ub : Nat → Option Nat) (pmpcfg pmpaddr : Nat → Nat) (i a : Nat)
    (hmode : modeOf (pmpcfg i) = 2) :
    regionAt ub pmpcfg pmpaddr i = some (pmpaddr i, (pmpaddr i + 4) % 2 ^ 64) ∧
    (matchesAt ub pmpcfg pmpaddr a i = true ↔
      (pmpaddr i ≤ a ∧ a < (pmpaddr i + 4) % 2 ^ 64)) ∧
    (pmpaddr i + 4 < 2 ^ 64 →
      regionAt ub pmpcfg pmpaddr i = some (pmpaddr i, pmpaddr i + 4) ∧
      (matchesAt ub pmpcfg pmpaddr a i = true ↔ (pmpaddr i ≤ a ∧ a < pmpaddr i + 4))) := by
  have hr : regionAt ub pmpcfg pmpaddr i = some (pmpaddr i, (pmpaddr i + 4) % 2 ^ 64) := by
    unfold regionAt
    rw [hmode]
    rfl
  have hm : matchesAt ub pmpcfg pmpaddr a i = true ↔
      (pmpaddr i ≤ a ∧ a < (pmpaddr i + 4) % 2 ^ 64) := by
    unfold matchesAt
    rw [hr, hmode]
    simp
  refine ⟨hr, hm, fun hlt => ?_⟩
  rw [hr, hm, Nat.mod_eq_of_lt hlt]
  exact ⟨rfl, Iff.rfl⟩

/-- The example of the specification: the NA4 address word 0x1000 gives the
region `[0x1000, 0x1004)`; 0x1003 is matched, 0x1004 is not. -/
theorem na4_region_decoding_witness :
    modeOf (tableOf [0x10] 0) = 2 ∧ tableOf [0x1000] 0 + 4 < 2 ^ 64 ∧
    regionAt undefinedShift (tableOf [0x10]) (tableOf [0x1000]) 0 = some (0x1000, 0x1004) ∧
    (matchesAt undefinedShift (tableOf [0x10]) (tableOf [0x1000]) 0x1003 0 = true ↔
      (0x1000 ≤ 0x1003 ∧ 0x1003 < 0x1000 + 4)) ∧
    matchesAt undefinedShift (tableOf [0x10]) (tableOf [0x1000]) 0x1004 0 = false :=
  ⟨by decide, by decide,
   ((na4_region_decoding undefinedShift (tableOf [0x10]) (tableOf [0x1000]) 0 0x1003
     (by decide)).2.2 (by decide)).1,
   ((na4_region_decoding undefinedShift (tableOf [0x10]) (tableOf [0x1000]) 0 0x1003
     (by decide)).2.2 (by decide)).2,
   by decide⟩

/-- C10. The shift of the NAPOT branch is not guarded.  Entry 0 in NAPOT mode
with the all-ones address word is reached with `n = 64`, so `1ULL << 67` is
evaluated and the evaluation has no defined result.  With the address word
0x1FFFFFFFFFFFFFFF (`n = 61`, shift count 64) the verdict depends on what the
shift yields: a shift that takes the count modulo 64 allows a User read at
that address, a shift that yields 0 faults it. -/
theorem napot_shift_unguarded :
    modeOf (tableOf [0x18] 0) = 3 ∧
    trailing_one_counter 0xFFFFFFFFFFFFFFFF + 3 = 67 ∧
    shl1 undefinedShift (trailing_one_counter 0xFFFFFFFFFFFFFFFF + 3) = none ∧
    access undefinedShift (tableOf [0x18]) (tableOf [0xFFFFFFFFFFFFFFFF]) 0x1000
      Priv.S.toChar Op.W.toChar = none ∧
    trailing_one_counter 0x1FFFFFFFFFFFFFFF + 3 = 64 ∧
    access (yields fun k => 2 ^ (k % 64)) (tableOf [0x19]) (tableOf [0x1FFFFFFFFFFFFFFF])
      0x1FFFFFFFFFFFFFFF Priv.U.toChar Op.R.toChar = some Verdict.Allowed ∧
    access (yields fun _ => 0) (tableOf [0x19]) (tableOf [0x1FFFFFFFFFFFFFFF])
      0x1FFFFFFFFFFFFFFF Priv.U.toChar Op.R.toChar = some Verdict.Fault := by
  decide

/-! ## The three outcomes of the scan -/

theorem matchesAt_eq_false_of_missesAt (ub : Nat → Option Nat) (pmpcfg pmpaddr : Nat → Nat)
    (a i : Nat) (h : missesAt ub pmpcfg pmpaddr a i = true) :
    matchesAt ub pmpcfg pmpaddr a i = false := by
  unfold missesAt at h
  unfold matchesAt
  by_cases hm : modeOf (pmpcfg i) = 0
  · simp [hm]
  · cases hr : regionAt ub pmpcfg pmpaddr i with
    | none => simp
    | some r =>
      obtain ⟨s, e⟩ := r
      simp only [hr, hm, decide_False, Bool.false_or] at h
      simp only [hr]
      simp only [Bool.not_eq_true_eq_eq_false] at h
      rw [h]
      simp

/-- The evaluation has no result when the first entry that is not passed over
is an enabled entry whose region is not computed. -/
theorem access_of_first_undefined (ub : Nat → Option Nat) (pmpcfg pmpaddr : Nat → Nat)
    (a : Nat) (priv_mod op : Char) (i : Nat) (hi : i < NUM_PMP)
    (hmiss : ∀ j, j < i → missesAt ub pmpcfg pmpaddr a j = true)
    (hm : modeOf (pmpcfg i) ≠ 0) (hr : regionAt ub pmpcfg pmpaddr i = none) :
    access ub pmpcfg pmpaddr a priv_mod op = none := by
  rw [access_eq_accessLoop ub pmpcfg pmpaddr a priv_mod op i (by omega) hmiss]
  have : NUM_PMP - i = (NUM_PMP - (i + 1)) + 1 := by omega
  rw [this, accessLoop]
  unfold regionAt at hr
  simp only [hm, if_false, hr]

theorem exists_least_not_missesAt (ub : Nat → Option Nat) (pmpcfg pmpaddr : Nat → Nat)
    (a : Nat) (n : Nat) (h : ¬ ∀ j, j < n → missesAt ub pmpcfg pmpaddr a j = true) :
    ∃ i, i < n ∧ (∀ j, j < i → missesAt ub pmpcfg pmpaddr a j = true) ∧
      missesAt ub pmpcfg pmpaddr a i = false := by
  induction n with
  | zero => exact absurd (fun j hj => absurd hj (Nat.not_lt_zero j)) h
  | succ n ih =>
    by_cases hn : ∀ j, j < n → missesAt ub pmpcfg pmpaddr a j = true
    · refine ⟨n, by omega, hn, ?_⟩
      cases hb : missesAt ub pmpcfg pmpaddr a n with
      | false => rfl
      | true =>
        exfalso
        apply h
        intro j hj
        by_cases hjn : j = n
        · rw [hjn]; exact hb
        · exact hn j (by omega)
    · obtain ⟨i, hi, h1, h2⟩ := ih hn
      exact ⟨i, by omega, h1, h2⟩

/-- An entry that is not passed over either matches or is an enabled entry
whose region is not computed. -/
theorem matchesAt_or_undefined (ub : Nat → Option Nat) (pmpcfg pmpaddr : Nat → Nat)
    (a i : Nat) (h : missesAt ub pmpcfg pmpaddr a i = false) :
    matchesAt ub pmpcfg pmpaddr a i = true ∨
      (modeOf (pmpcfg i) ≠ 0 ∧ regionAt ub pmpcfg pmpaddr i = none) := by
  unfold missesAt at h
  unfold matchesAt
  by_cases hm : modeOf (pmpcfg i) = 0
  · simp [hm] at h
  · cases hr : regionAt ub pmpcfg pmpaddr i with
    | none => exact Or.inr ⟨hm, rfl⟩
    | some r =>
      obtain ⟨s, e⟩ := r
      left
      simp only [hr, hm, decide_False, Bool.false_or, Bool.not_eq_false_eq_eq_true] at h
      simp only [h, hm, ne_eq, not_false_eq_true, decide_True, Bool.and_self]

/-- The scan ends in one of three ways: every entry is passed over; some
first entry matches; or some first entry has no computed region. -/
theorem scan_cases (ub : Nat → Option Nat) (pmpcfg pmpaddr : Nat → Nat) (a : Nat) :
    (∀ j, j < NUM_PMP → missesAt ub pmpcfg pmpaddr a j = true) ∨
    (∃ i, i < NUM_PMP ∧ (∀ j, j < i → missesAt ub pmpcfg pmpaddr a j = true) ∧
      matchesAt ub pmpcfg pmpaddr a i = true) ∨
    (∃ i, i < NUM_PMP ∧ (∀ j, j < i → missesAt ub pmpcfg pmpaddr a j = true) ∧
      modeOf (pmpcfg i) ≠ 0 ∧ regionAt ub pmpcfg pmpaddr i = none) := by
  by_cases h : ∀ j, j < NUM_PMP → missesAt ub pmpcfg pmpaddr a j = true
  · exact Or.inl h
  · obtain ⟨i, hi, h1, h2⟩ := exists_least_not_missesAt ub pmpcfg pmpaddr a NUM_PMP h
    rcases matchesAt_or_undefined ub pmpcfg pmpaddr a i h2 with hm | ⟨hm, hr⟩
    · exact Or.inr (Or.inl ⟨i, hi, h1, hm⟩)
    · exact Or.inr (Or.inr ⟨i, hi, h1, hm, hr⟩)

/-! ## Tables that agree on a prefix -/

theorem prevAddrAt_congr (c1 a1 c2 a2 : Nat → Nat) (i : Nat)
    (h : ∀ j, j < i → modeOf (c1 j) = modeOf (c2 j) ∧ a1 j = a2 j) :
    prevAddrAt c1 a1 i = prevAddrAt c2 a2 i := by
  induction i with
  | zero => rfl
  | succ i ih =>
    simp only [prevAddrAt]
    rw [ih (fun j hj => h j (by omega)), (h i (by omega)).1, (h i (by omega)).2]

theorem anyEnabledAt_congr (c1 c2 : Nat → Nat) (i : Nat)
    (h : ∀ j, j < i → modeOf (c1 j) = modeOf (c2 j)) :
    anyEnabledAt c1 i = anyEnabledAt c2 i := by
  induction i with
  | zero => rfl
  | succ i ih =>
    simp only [anyEnabledAt]
    rw [ih (fun j hj => h j (by omega)), h i (by omega)]

theorem regionAt_congr (ub : Nat → Option Nat) (c1 a1 c2 a2 : Nat → Nat) (i : Nat)
    (h : ∀ j, j ≤ i → modeOf (c1 j) = modeOf (c2 j) ∧ a1 j = a2 j) :
    regionAt ub c1 a1 i = regionAt ub c2 a2 i := by
  unfold regionAt
  rw [prevAddrAt_congr c1 a1 c2 a2 i (fun j hj => h j (by omega)),
    (h i (le_refl i)).1, (h i (le_refl i)).2]

theorem matchesAt_congr (ub : Nat → Option Nat) (c1 a1 c2 a2 : Nat → Nat) (a i : Nat)
    (h : ∀ j, j ≤ i → modeOf (c1 j) = modeOf (c2 j) ∧ a1 j = a2 j) :
    matchesAt ub c1 a1 a i = matchesAt ub c2 a2 a i := by
  unfold matchesAt
  rw [regionAt_congr ub c1 a1 c2 a2 i h, (h i (le_refl i)).1]

theorem missesAt_congr (ub : Nat → Option Nat) (c1 a1 c2 a2 : Nat → Nat) (a i : Nat)
    (h : ∀ j, j ≤ i → modeOf (c1 j) = modeOf (c2 j) ∧ a1 j = a2 j) :
    missesAt ub c1 a1 a i = missesAt ub c2 a2 a i := by
  unfold missesAt
  rw [regionAt_congr ub c1 a1 c2 a2 i h, (h i (le_refl i)).1]

/-! ## The claims on the scan as a whole -/

/-- C11. Entries after the first match are never consulted: when entry `i` is
the first matching entry of the first table for the query address and the two
tables have the same configuration byte and address word at every index up to
`i`, `access` gives the same result on both tables, whatever the entries after
`i` are (and whatever a shift by 64 or more does). -/
theorem later_entries_not_consulted (ub : Nat → Option Nat) (c1 a1 c2 a2 : Nat → Nat)
    (a : Nat) (p : Priv) (o : Op) (i : Nat) (hfirst : FirstMatch ub c1 a1 a i)
    (hagree : ∀ j, j ≤ i → c1 j = c2 j ∧ a1 j = a2 j) :
    access ub c1 a1 a p.toChar o.toChar = access ub c2 a2 a p.toChar o.toChar := by
  obtain ⟨hi, hmatch, hleast⟩ := hfirst
  have hag : ∀ k, k ≤ i → ∀ j, j ≤ k → modeOf (c1 j) = modeOf (c2 j) ∧ a1 j = a2 j := by
    intro k hk j hj
    have := hagree j (by omega)
    exact ⟨by rw [this.1], this.2⟩
  by_cases hall : ∀ j, j < i → missesAt ub c1 a1 a j = true
  · have hall2 : ∀ j, j < i → missesAt ub c2 a2 a j = true := by
      intro j hj
      rw [← missesAt_congr ub c1 a1 c2 a2 a j (hag j (by omega))]
      exact hall j hj
    have hmatch2 : matchesAt ub c2 a2 a i = true := by
      rw [← matchesAt_congr ub c1 a1 c2 a2 a i (hag i (le_refl i))]
      exact hmatch
    rw [access_of_first_match ub c1 a1 a p.toChar o.toChar i hi hall hmatch,
      access_of_first_match ub c2 a2 a p.toChar o.toChar i hi hall2 hmatch2,
      (hagree i (le_refl i)).1]
  · obtain ⟨k, hk, hk1, hk2⟩ := exists_least_not_missesAt ub c1 a1 a i hall
    rcases matchesAt_or_undefined ub c1 a1 a k hk2 with hm | ⟨hm, hr⟩
    · rw [hleast k hk] at hm
      exact absurd hm (by decide)
    · have hk1b : ∀ j, j < k → missesAt ub c2 a2 a j = true := by
        intro j hj
        rw [← missesAt_congr ub c1 a1 c2 a2 a j (hag j (by omega))]
        exact hk1 j hj
      have hm2 : modeOf (c2 k) ≠ 0 := by
        rw [← (hag k (by omega) k (le_refl k)).1]
        exact hm
      have hr2 : regionAt ub c2 a2 k = none := by
        rw [← regionAt_congr ub c1 a1 c2 a2 k (hag k (by omega))]
        exact hr
      rw [access_of_first_undefined ub c1 a1 a p.toChar o.toChar k (by omega) hk1 hm hr,
        access_of_first_undefined ub c2 a2 a p.toChar o.toChar k (by omega) hk1b hm2 hr2]

/-- Two tables with the same entry 0 (NA4 at 0x2000, read only) and different
entries 1 and 2: a User write at 0x2000 faults on both. -/
theorem later_entries_not_consulted_witness :
    FirstMatch undefinedShift (tableOf [0x11, 0x9F]) (tableOf [0x2000, 0x2007]) 0x2000 0 ∧
    (∀ j, j ≤ 0 → tableOf [0x11, 0x9F] j = tableOf [0x11, 0x00, 0x1F] j ∧
      tableOf [0x2000, 0x2007] j = tableOf [0x2000, 0x5000, 0x3FFF] j) ∧
    access undefinedShift (tableOf [0x11, 0x9F]) (tableOf [0x2000, 0x2007]) 0x2000
        Priv.U.toChar Op.W.toChar =
      access undefinedShift (tableOf [0x11, 0x00, 0x1F]) (tableOf [0x2000, 0x5000, 0x3FFF])
        0x2000 Priv.U.toChar Op.W.toChar :=
  ⟨by decide, by decide,
   later_entries_not_consulted undefinedShift (tableOf [0x11, 0x9F]) (tableOf [0x2000, 0x2007])
     (tableOf [0x11, 0x00, 0x1F]) (tableOf [0x2000, 0x5000, 0x3FFF]) 0x2000 Priv.U Op.W 0
     (by decide) (by decide)⟩

/-- C12. The locked NAPOT scenario: in every table whose entry 0 has the
configuration byte 0x9F (locked, NAPOT, r = w = x = 1) and the address word
0x8000001F (5 trailing ones), entry 0 has the region
`[0x80000000, 0x80000100)` and `access` returns Allowed for every query
address inside it, for every privilege and every operation. -/
theorem locked_napot_scenario (ub : Nat → Option Nat) (pmpcfg pmpaddr : Nat → Nat) (a : Nat)
    (p : Priv) (o : Op) (hcfg : pmpcfg 0 = 0x9F) (haddr : pmpaddr 0 = 0x8000001F)
    (ha : 0x80000000 ≤ a ∧ a < 0x80000100) :
    (modeOf (pmpcfg 0) = 3 ∧ (pmpcfg 0).testBit 7 = true ∧ (pmpcfg 0).testBit 0 = true ∧
      (pmpcfg 0).testBit 1 = true ∧ (pmpcfg 0).testBit 2 = true) ∧
    trailing_one_counter (pmpaddr 0) = 5 ∧
    regionAt ub pmpcfg pmpaddr 0 = some (0x80000000, 0x80000100) ∧
    access ub pmpcfg pmpaddr a p.toChar o.toChar = some Verdict.Allowed := by
  have hregion : regionAt ub pmpcfg pmpaddr 0 = some (0x80000000, 0x80000100) := by
    unfold regionAt
    rw [hcfg, haddr]
    have := region_napot ub 0x8000001F (prevAddrAt pmpcfg pmpaddr 0) 5 (by decide)
      (by decide) (by decide) (by decide)
    rw [show modeOf 0x9F = 3 by decide, this]
    decide
  have hmatch : matchesAt ub pmpcfg pmpaddr a 0 = true := by
    unfold matchesAt
    rw [hregion, hcfg]
    simp only [show modeOf 0x9F = 3 by decide]
    simp
    omega
  refine ⟨?_, ?_, hregion, ?_⟩
  · rw [hcfg]; decide
  · rw [haddr]; decide
  · rw [access_of_first_match ub pmpcfg pmpaddr a p.toChar o.toChar 0 (by decide)
      (fun j hj => absurd hj (Nat.not_lt_zero j)) hmatch, hcfg]
    cases p <;> cases o <;> decide

/-- The scenario of the specification: a Supervisor write inside the region
is allowed. -/
theorem locked_napot_scenario_witness :
    tableOf [0x9F] 0 = 0x9F ∧ tableOf [0x8000001F] 0 = 0x8000001F ∧
    (0x80000000 ≤ 0x80000040 ∧ 0x80000040 < 0x80000100) ∧
    access undefinedShift (tableOf [0x9F]) (tableOf [0x8000001F]) 0x80000040
      Priv.S.toChar Op.W.toChar = some Verdict.Allowed :=
  ⟨by decide, by decide, by decide,
   (locked_napot_scenario undefinedShift (tableOf [0x9F]) (tableOf [0x8000001F]) 0x80000040
     Priv.S Op.W (by decide) (by decide) (by decide)).2.2.2⟩

/-! ## The trailing-ones counter -/

/-- What the loop of `trailing_one_counter` adds to `count`: the number `n` of
consecutive set bits from bit 0, at most the number of iterations allowed. -/
theorem tocLoop_spec (fuel : Nat) : ∀ (value count : Nat), value < 2 ^ fuel →
    ∃ n, tocLoop fuel value count = count + n ∧ n ≤ fuel ∧
      (∀ j, j < n → value.testBit j = true) ∧ (n = fuel ∨ value.testBit n = false) := by
  induction fuel with
  | zero =>
    intro value count _
    exact ⟨0, rfl, le_refl 0, fun j hj => absurd hj (Nat.not_lt_zero j), Or.inl rfl⟩
  | succ fuel ih =>
    intro value count hv
    rw [tocLoop]
    by_cases h0 : value &&& 1 ≠ 0
    · rw [if_pos h0]
      have hs : value >>> 1 < 2 ^ fuel := by
        rw [Nat.shiftRight_eq_div_pow, pow_one]
        rw [pow_succ] at hv
        omega
      obtain ⟨m, hm1, hm2, hm3, hm4⟩ := ih (value >>> 1) (count + 1) hs
      refine ⟨m + 1, by rw [hm1]; omega, by omega, ?_, ?_⟩
      · intro j hj
        cases j with
        | zero => exact (and_one_ne_zero_iff value).1 h0
        | succ k =>
          have := hm3 k (by omega)
          rwa [Nat.testBit_shiftRight, Nat.add_comm] at this
      · rcases hm4 with hm4 | hm4
        · exact Or.inl (by omega)
        · right
          rwa [Nat.testBit_shiftRight, Nat.add_comm] at hm4
    · rw [if_neg h0]
      refine ⟨0, rfl, by omega, fun j hj => absurd hj (Nat.not_lt_zero j), Or.inr ?_⟩
      cases hb : value.testBit 0 with
      | false => rfl
      | true => exact absurd ((and_one_ne_zero_iff value).2 hb) h0

/-- C13. `trailing_one_counter` terminates and is correct: on every 64-bit
value the loop has ended within 64 iterations (allowing more iterations does
not change the result), and the result `n` satisfies `n ≤ 64`, bits
`0 .. n-1` of the value are set, and `n = 64` or bit `n` is clear.  So `n = 0`
when the least-significant bit is 0, and `n = 64` exactly for the all-ones
word. -/
theorem trailing_one_counter_correct (v : Nat) (hv : v < 2 ^ 64) :
    (∀ k, tocLoop (64 + k) v 0 = trailing_one_counter v) ∧
    trailing_one_counter v ≤ 64 ∧
    (∀ j, j < trailing_one_counter v → v.testBit j = true) ∧
    (trailing_one_counter v = 64 ∨ v.testBit (trailing_one_counter v) = false) ∧
    (v.testBit 0 = false → trailing_one_counter v = 0) ∧
    (trailing_one_counter v = 64 ↔ v = 2 ^ 64 - 1) := by
  obtain ⟨n, hn1, hn2, hn3, hn4⟩ := tocLoop_spec 64 v 0 hv
  have hn : trailing_one_counter v = n := by
    unfold trailing_one_counter
    rw [hn1]
    omega
  rw [hn]
  refine ⟨fun k => ?_, hn2, hn3, hn4, ?_, ?_, ?_⟩
  · rw [← hn]
    exact tocLoop_add_fuel 64 k v 0 hv
  · intro hb
    cases n with
    | zero => rfl
    | succ m =>
      have := hn3 0 (by omega)
      rw [hb] at this
      exact absurd this (by decide)
  · intro h64
    apply Nat.eq_of_testBit_eq
    intro j
    rw [Nat.testBit_two_pow_sub_one]
    by_cases hj : j < 64
    · rw [hn3 j (by omega)]
      simp [hj]
    · rw [Nat.testBit_lt_two_pow
        (lt_of_lt_of_le hv (Nat.pow_le_pow_right (by decide) (by omega)))]
      simp [hj]
  · intro hall
    rw [← hn, hall]
    decide

/-- The examples: 0x87 has 3 trailing ones, the all-ones word has 64, an even
word has none. -/
theorem trailing_one_counter_correct_witness :
    (0x87 : Nat) < 2 ^ 64 ∧
    (trailing_one_counter 0x87 = 64 ∨ (0x87 : Nat).testBit (trailing_one_counter 0x87) = false) ∧
    trailing_one_counter 0x87 = 3 ∧
    trailing_one_counter 0xFFFFFFFFFFFFFFFF = 64 ∧
    trailing_one_counter 0x1000 = 0 :=
  ⟨by decide, (trailing_one_counter_correct 0x87 (by decide)).2.2.2.1, by decide,
   (trailing_one_counter_correct 0xFFFFFFFFFFFFFFFF (by decide)).2.2.2.2.2.2 (by decide),
   (trailing_one_counter_correct 0x1000 (by decide)).2.2.2.2.1 (by decide)⟩

/-! ## The loop state -/

/-- When the loop reaches iteration `i`, its variables are the ones described
by `prevAddrAt` and `anyEnabledAt`, and every earlier entry was passed over. -/
theorem loopStateAt_eq_some (ub : Nat → Option Nat) (pmpcfg pmpaddr : Nat → Nat) (a : Nat) :
    ∀ (i prev : Nat) (any : Bool), loopStateAt ub pmpcfg pmpaddr a i = some (prev, any) →
      prev = prevAddrAt pmpcfg pmpaddr i ∧ any = anyEnabledAt pmpcfg i ∧
      ∀ j, j < i → missesAt ub pmpcfg pmpaddr a j = true := by
  intro i
  induction i with
  | zero =>
    intro prev any h
    simp only [loopStateAt, Option.some.injEq, Prod.mk.injEq] at h
    exact ⟨h.1.symm, h.2.symm, fun j hj => absurd hj (Nat.not_lt_zero j)⟩
  | succ i ih =>
    intro prev any h
    rw [loopStateAt] at h
    cases hs : loopStateAt ub pmpcfg pmpaddr a i with
    | none => simp [hs] at h
    | some st =>
      obtain ⟨p0, e0⟩ := st
      obtain ⟨hp0, he0, hmiss⟩ := ih p0 e0 hs
      simp only [hs] at h
      have hlt : ∀ j, j < i + 1 → (j < i ∨ j = i) := fun j hj => by omega
      by_cases hm : modeOf (pmpcfg i) = 0
      · simp only [hm, if_true, Option.some.injEq, Prod.mk.injEq] at h
        refine ⟨?_, ?_, ?_⟩
        · simp only [prevAddrAt, hm, if_true]
          rw [← h.1, hp0]
        · simp only [anyEnabledAt, hm, if_true]
          rw [← h.2, he0]
        · intro j hj
          rcases hlt j hj with hj | hj
          · exact hmiss j hj
          · subst hj
            simp [missesAt, hm]
      · simp only [hm, if_false] at h
        cases hr : region ub (modeOf (pmpcfg i)) (pmpaddr i) p0 with
        | none => simp [hr] at h
        | some r =>
          obtain ⟨rs, re⟩ := r
          simp only [hr] at h
          by_cases hin : a ≥ rs ∧ a < re
          · simp [hin] at h
          · rw [if_neg hin] at h
            simp only [Option.some.injEq, Prod.mk.injEq] at h
            refine ⟨?_, ?_, ?_⟩
            · simp only [prevAddrAt, hm, if_false]
              exact h.1.symm
            · simp only [anyEnabledAt, hm, if_false]
              exact h.2.symm
            · intro j hj
              rcases hlt j hj with hj | hj
              · exact hmiss j hj
              · subst hj
                unfold missesAt regionAt
                rw [← hp0, hr]
                simp only [hm, decide_False, Bool.false_or, Bool.not_eq_true',
                  Bool.and_eq_false_imp, decide_eq_true_eq, decide_eq_false_iff_not]
                intro h1 h2
                exact hin ⟨h1, h2⟩

/-- The value described by `prevAddrAt` is the address word of the nearest
earlier enabled entry, or 0 when there is none. -/
theorem prevAddrAt_spec (pmpcfg pmpaddr : Nat → Nat) (i : Nat) :
    (∃ j, j < i ∧ modeOf (pmpcfg j) ≠ 0 ∧ (∀ k, j < k → k < i → modeOf (pmpcfg k) = 0) ∧
      prevAddrAt pmpcfg pmpaddr i = pmpaddr j) ∨
    ((∀ j, j < i → modeOf (pmpcfg j) = 0) ∧ prevAddrAt pmpcfg pmpaddr i = 0) := by
  induction i with
  | zero => exact Or.inr ⟨fun j hj => absurd hj (Nat.not_lt_zero j), rfl⟩
  | succ i ih =>
    by_cases hm : modeOf (pmpcfg i) = 0
    · have hp : prevAddrAt pmpcfg pmpaddr (i + 1) = prevAddrAt pmpcfg pmpaddr i := by
        simp only [prevAddrAt, hm, if_true]
      rw [hp]
      rcases ih with ⟨j, hj, hjm, hjk, hjp⟩ | ⟨hall, hp0⟩
      · refine Or.inl ⟨j, by omega, hjm, ?_, hjp⟩
        intro k hk1 hk2
        by_cases hki : k = i
        · rw [hki]; exact hm
        · exact hjk k hk1 (by omega)
      · refine Or.inr ⟨?_, hp0⟩
        intro j hj
        by_cases hji : j = i
        · rw [hji]; exact hm
        · exact hall j (by omega)
    · refine Or.inl ⟨i, by omega, hm, fun k hk1 hk2 => absurd hk2 (by omega), ?_⟩
      simp only [prevAddrAt, hm, if_false]

/-- C14. The scan state of `access` as coded: when the loop reaches entry `i`
with the variables `prev_addr = prev` and `anyPMPEnabled = any` (the rest of
the evaluation is the loop from `i` in that state), `prev` is the address word
of the nearest preceding entry whose addressing mode is non-disabled, or 0 if
every entry before `i` is disabled.  A top-of-range entry `i` is then tested
against the region `[prev, pmpaddr i)`; at index 0 this is `[0, pmpaddr 0)`. -/
theorem prev_addr_tracks_enabled_entries (ub : Nat → Option Nat) (pmpcfg pmpaddr : Nat → Nat)
    (a i prev : Nat) (any : Bool) (hi : i < NUM_PMP)
    (hreach : loopStateAt ub pmpcfg pmpaddr a i = some (prev, any)) :
    (∀ priv_mod op : Char, access ub pmpcfg pmpaddr a priv_mod op =
      accessLoop ub pmpcfg pmpaddr a priv_mod op (NUM_PMP - i) i prev any) ∧
    ((∃ j, j < i ∧ modeOf (pmpcfg j) ≠ 0 ∧ (∀ k, j < k → k < i → modeOf (pmpcfg k) = 0) ∧
        prev = pmpaddr j) ∨
      ((∀ j, j < i → modeOf (pmpcfg j) = 0) ∧ prev = 0)) ∧
    (modeOf (pmpcfg i) = 1 →
      region ub (modeOf (pmpcfg i)) (pmpaddr i) prev = some (prev, pmpaddr i) ∧
      (matchesAt ub pmpcfg pmpaddr a i = true ↔ (prev ≤ a ∧ a < pmpaddr i))) ∧
    (i = 0 → prev = 0) := by
  obtain ⟨hp, he, hmiss⟩ := loopStateAt_eq_some ub pmpcfg pmpaddr a i prev any hreach
  refine ⟨fun priv_mod op => ?_, ?_, fun hm => ?_, fun h0 => ?_⟩
  · rw [hp, he]
    exact access_eq_accessLoop ub pmpcfg pmpaddr a priv_mod op i (by omega) hmiss
  · rw [hp]
    exact prevAddrAt_spec pmpcfg pmpaddr i
  · constructor
    · rw [hm]; rfl
    · unfold matchesAt regionAt
      rw [← hp, hm]
      simp [region]
  · rw [hp, h0]; rfl

/-- Entry 0 disabled with address word 0x1000, entry 1 top-of-range with
address word 0x2000: the loop reaches entry 1 with `prev_addr = 0`, and entry
1 is tested against `[0, 0x2000)`. -/
theorem prev_addr_tracks_enabled_entries_witness :
    1 < NUM_PMP ∧
    loopStateAt undefinedShift (tableOf [0x00, 0x09]) (tableOf [0x1000, 0x2000]) 0x500 1
      = some (0, false) ∧
    ((∀ j, j < 1 → modeOf (tableOf [0x00, 0x09] j) = 0) ∧ (0 : Nat) = 0) ∧
    region undefinedShift (modeOf (tableOf [0x00, 0x09] 1)) (tableOf [0x1000, 0x2000] 1) 0
      = some (0, tableOf [0x1000, 0x2000] 1) :=
  ⟨by decide, by decide, by decide,
   ((prev_addr_tracks_enabled_entries undefinedShift (tableOf [0x00, 0x09])
     (tableOf [0x1000, 0x2000]) 0x500 1 0 false (by decide) (by decide)).2.2.1
       (by decide)).1⟩

/-! ## Regions that wrap -/

/-- An entry whose computed region ends below its start matches no address. -/
theorem matchesAt_eq_false_of_end_lt_start (ub : Nat → Option Nat) (pmpcfg pmpaddr : Nat → Nat)
    (i s e : Nat) (hr : regionAt ub pmpcfg pmpaddr i = some (s, e)) (hlt : e < s) (a : Nat) :
    matchesAt ub pmpcfg pmpaddr a i = false := by
  unfold matchesAt
  rw [hr]
  simp only [Bool.and_eq_false_imp, decide_eq_true_eq, Bool.and_eq_false_imp,
    decide_eq_false_iff_not, ge_iff_le]
  intro _ h1
  omega

/-- C15. Region ends wrap modulo `2 ^ 64` into empty regions: for an NA4 entry
whose 64-bit address word is at least `2 ^ 64 - 4`, and for a NAPOT entry with
`n` trailing ones, `n + 3 < 64`, whose base plus size equals `2 ^ 64`, the
computed `region_end` is below `region_start`; the entry matches no address
(its own address word included) and is never the first matching entry. -/
theorem wrapped_region_never_matches (ub : Nat → Option Nat) (pmpcfg pmpaddr : Nat → Nat)
    (i : Nat) (haddr : pmpaddr i < 2 ^ 64)
    (hcase : (modeOf (pmpcfg i) = 2 ∧ 2 ^ 64 - 4 ≤ pmpaddr i) ∨
      (modeOf (pmpcfg i) = 3 ∧ ∃ n, n + 3 < 64 ∧
        (∀ j, j < n → (pmpaddr i).testBit j = true) ∧ (pmpaddr i).testBit n = false ∧
        pmpaddr i - pmpaddr i % 2 ^ (n + 3) + 2 ^ (n + 3) = 2 ^ 64)) :
    (∃ region_start region_end,
      regionAt ub pmpcfg pmpaddr i = some (region_start, region_end) ∧
      region_end < region_start) ∧
    (∀ a, matchesAt ub pmpcfg pmpaddr a i = false) ∧
    (∀ a, ¬ FirstMatch ub pmpcfg pmpaddr a i) := by
  have hex : ∃ region_start region_end,
      regionAt ub pmpcfg pmpaddr i = some (region_start, region_end) ∧
      region_end < region_start := by
    rcases hcase with ⟨hm, hge⟩ | ⟨hm, n, hn, hones, hzero, hsum⟩
    · refine ⟨pmpaddr i, (pmpaddr i + 4) % 2 ^ 64, ?_, ?_⟩
      · unfold regionAt
        rw [hm]
        rfl
      · omega
    · refine ⟨pmpaddr i - pmpaddr i % 2 ^ (n + 3), 0, ?_, ?_⟩
      · unfold regionAt
        rw [hm, region_napot ub (pmpaddr i) _ n haddr hn hones hzero, hsum, Nat.mod_self]
      · have hlt : 2 ^ (n + 3) < 2 ^ 64 := Nat.pow_lt_pow_right (by decide) hn
        omega
  obtain ⟨s, e, hr, hlt⟩ := hex
  have hnever : ∀ a, matchesAt ub pmpcfg pmpaddr a i = false :=
    matchesAt_eq_false_of_end_lt_start ub pmpcfg pmpaddr i s e hr hlt
  refine ⟨⟨s, e, hr, hlt⟩, hnever, fun a hf => ?_⟩
  have := hf.2.1
  rw [hnever a] at this
  exact absurd this (by decide)

/-- The NA4 address word 0xFFFFFFFFFFFFFFFC and the NAPOT address word
0xFFFFFFFFFFFFFFF8 do not match their own address. -/
theorem wrapped_region_never_matches_witness :
    tableOf [0xFFFFFFFFFFFFFFFC] 0 < 2 ^ 64 ∧
    (modeOf (tableOf [0x17] 0) = 2 ∧ 2 ^ 64 - 4 ≤ tableOf [0xFFFFFFFFFFFFFFFC] 0) ∧
    regionAt undefinedShift (tableOf [0x17]) (tableOf [0xFFFFFFFFFFFFFFFC]) 0
      = some (0xFFFFFFFFFFFFFFFC, 0) ∧
    matchesAt undefinedShift (tableOf [0x17]) (tableOf [0xFFFFFFFFFFFFFFFC])
      0xFFFFFFFFFFFFFFFC 0 = false ∧
    regionAt undefinedShift (tableOf [0x1F]) (tableOf [0xFFFFFFFFFFFFFFF8]) 0
      = some (0xFFFFFFFFFFFFFFF8, 0) ∧
    matchesAt undefinedShift (tableOf [0x1F]) (tableOf [0xFFFFFFFFFFFFFFF8])
      0xFFFFFFFFFFFFFFF8 0 = false :=
  ⟨by decide, by decide, by decide,
   (wrapped_region_never_matches undefinedShift (tableOf [0x17]) (tableOf [0xFFFFFFFFFFFFFFFC])
     0 (by decide) (Or.inl (by decide))).2.1 0xFFFFFFFFFFFFFFFC,
   by decide,
   (wrapped_region_never_matches undefinedShift (tableOf [0x1F]) (tableOf [0xFFFFFFFFFFFFFFF8])
     0 (by decide)
     (Or.inr ⟨by decide, 0, by decide, fun j hj => absurd hj (Nat.not_lt_zero j),
       by decide, by decide⟩)).2.1 0xFFFFFFFFFFFFFFF8⟩

/-! ## Relations between queries and between tables -/

theorem modeOf_eq_of_testBit (c1 c2 : Nat) (h3 : c1.testBit 3 = c2.testBit 3)
    (h4 : c1.testBit 4 = c2.testBit 4) : modeOf c1 = modeOf c2 := by
  rw [modeOf_eq, modeOf_eq]
  simp only [Nat.testBit_to_div_mod, decide_eq_decide] at h3 h4
  norm_num at h3 h4
  omega

theorem Op.bit_lt (o : Op) : o.bit < 3 := by
  cases o <;> decide

/-- The value of `permit` for Supervisor and for User is the same. -/
theorem permit_S_eq_U (c : Nat) (o : Op) :
    permit c Priv.S.toChar o.toChar = permit c Priv.U.toChar o.toChar := by
  rw [permit_eq, permit_eq]
  rfl

/-- C16. Machine mode is at least as permissive as any other mode: if `access`
returns Allowed for some privilege (Supervisor or User in particular) then it
returns Allowed for Machine on the same table, address and operation; and a
Machine query faults only when its first matching entry is locked and lacks
the operation's bit. -/
theorem machine_at_least_as_permissive (ub : Nat → Option Nat) (pmpcfg pmpaddr : Nat → Nat)
    (a : Nat) (o : Op) :
    (∀ p : Priv, access ub pmpcfg pmpaddr a p.toChar o.toChar = some Verdict.Allowed →
      access ub pmpcfg pmpaddr a Priv.M.toChar o.toChar = some Verdict.Allowed) ∧
    (access ub pmpcfg pmpaddr a Priv.M.toChar o.toChar = some Verdict.Fault →
      ∃ i, FirstMatch ub pmpcfg pmpaddr a i ∧ (pmpcfg i).testBit 7 = true ∧
        (pmpcfg i).testBit o.bit = false) := by
  rcases scan_cases ub pmpcfg pmpaddr a with hall | ⟨i, hi, hmiss, hmatch⟩ | ⟨i, hi, hmiss, hm, hr⟩
  · have hM := access_of_no_match ub pmpcfg pmpaddr a Priv.M.toChar o.toChar hall
    simp only [Priv.toChar, if_true] at hM
    refine ⟨fun p _ => hM, fun hf => ?_⟩
    rw [show Priv.M.toChar = 'M' from rfl, hM] at hf
    exact absurd hf (by decide)
  · have hacc := fun p : Priv =>
      access_of_first_match ub pmpcfg pmpaddr a p.toChar o.toChar i hi hmiss hmatch
    simp only [permit_eq] at hacc
    refine ⟨fun p hp => ?_, fun hf => ?_⟩
    · rw [hacc p] at hp
      rw [hacc Priv.M]
      revert hp
      cases (pmpcfg i).testBit 7 <;> cases (pmpcfg i).testBit o.bit <;> cases p <;> simp
    · rw [hacc Priv.M] at hf
      refine ⟨i, ⟨hi, hmatch, fun j hj =>
        matchesAt_eq_false_of_missesAt ub pmpcfg pmpaddr a j (hmiss j hj)⟩, ?_⟩
      revert hf
      cases (pmpcfg i).testBit 7 <;> cases (pmpcfg i).testBit o.bit <;> simp
  · have hacc := fun p : Priv =>
      access_of_first_undefined ub pmpcfg pmpaddr a p.toChar o.toChar i hi hmiss hm hr
    refine ⟨fun p hp => ?_, fun hf => ?_⟩
    · rw [hacc p] at hp
      exact absurd hp (by simp)
    · rw [hacc Priv.M] at hf
      exact absurd hf (by simp)

/-- An NA4 entry with the read bit, unlocked: a User read is allowed, hence a
Machine read; with the entry locked and read only, the Machine write faults
and entry 0 is the locked first match without the write bit. -/
theorem machine_at_least_as_permissive_witness :
    access undefinedShift (tableOf [0x11]) (tableOf [0x2000]) 0x2000
      Priv.U.toChar Op.R.toChar = some Verdict.Allowed ∧
    access undefinedShift (tableOf [0x11]) (tableOf [0x2000]) 0x2000
      Priv.M.toChar Op.R.toChar = some Verdict.Allowed ∧
    access undefinedShift (tableOf [0x91]) (tableOf [0x2000]) 0x2000
      Priv.M.toChar Op.W.toChar = some Verdict.Fault ∧
    (∃ i, FirstMatch undefinedShift (tableOf [0x91]) (tableOf [0x2000]) 0x2000 i ∧
      (tableOf [0x91] i).testBit 7 = true ∧ (tableOf [0x91] i).testBit Op.W.bit = false) :=
  ⟨by decide,
   (machine_at_least_as_permissive undefinedShift (tableOf [0x11]) (tableOf [0x2000]) 0x2000
     Op.R).1 Priv.U (by decide),
   by decide,
   (machine_at_least_as_permissive undefinedShift (tableOf [0x91]) (tableOf [0x2000]) 0x2000
     Op.W).2 (by decide)⟩

/-- C17. Supervisor and User are indistinguishable: for every table, address
and operation, `access` returns the same result for Supervisor as for User. -/
theorem supervisor_user_same_verdict (ub : Nat → Option Nat) (pmpcfg pmpaddr : Nat → Nat)
    (a : Nat) (o : Op) :
    access ub pmpcfg pmpaddr a Priv.S.toChar o.toChar =
      access ub pmpcfg pmpaddr a Priv.U.toChar o.toChar := by
  rcases scan_cases ub pmpcfg pmpaddr a with hall | ⟨i, hi, hmiss, hmatch⟩ | ⟨i, hi, hmiss, hm, hr⟩
  · rw [access_of_no_match ub pmpcfg pmpaddr a Priv.S.toChar o.toChar hall,
      access_of_no_match ub pmpcfg pmpaddr a Priv.U.toChar o.toChar hall]
    simp [Priv.toChar]
  · rw [access_of_first_match ub pmpcfg pmpaddr a Priv.S.toChar o.toChar i hi hmiss hmatch,
      access_of_first_match ub pmpcfg pmpaddr a Priv.U.toChar o.toChar i hi hmiss hmatch,
      permit_S_eq_U]
  · rw [access_of_first_undefined ub pmpcfg pmpaddr a Priv.S.toChar o.toChar i hi hmiss hm hr,
      access_of_first_undefined ub pmpcfg pmpaddr a Priv.U.toChar o.toChar i hi hmiss hm hr]

/-- C18. Granting permission bits never removes access: when two tables have
the same address words and, entry by entry, the same addressing-mode bits
(3 and 4) and locked bit (7), and every r/w/x bit set in the first table is
set in the second, every query allowed on the first table is allowed on the
second. -/
theorem granting_bits_is_monotone (ub : Nat → Option Nat) (c1 a1 c2 a2 : Nat → Nat)
    (a : Nat) (p : Priv) (o : Op)
    (hsame : ∀ i, i < NUM_PMP → a1 i = a2 i ∧ (c1 i).testBit 3 = (c2 i).testBit 3 ∧
      (c1 i).testBit 4 = (c2 i).testBit 4 ∧ (c1 i).testBit 7 = (c2 i).testBit 7)
    (hgrant : ∀ i, i < NUM_PMP → ∀ b, b < 3 →
      (c1 i).testBit b = true → (c2 i).testBit b = true)
    (hallowed : access ub c1 a1 a p.toChar o.toChar = some Verdict.Allowed) :
    access ub c2 a2 a p.toChar o.toChar = some Verdict.Allowed := by
  have hag : ∀ k, k < NUM_PMP → ∀ j, j ≤ k → modeOf (c1 j) = modeOf (c2 j) ∧ a1 j = a2 j := by
    intro k hk j hj
    have := hsame j (by omega)
    exact ⟨modeOf_eq_of_testBit _ _ this.2.1 this.2.2.1, this.1⟩
  have hmissEq : ∀ j, j < NUM_PMP → missesAt ub c1 a1 a j = missesAt ub c2 a2 a j :=
    fun j hj => missesAt_congr ub c1 a1 c2 a2 a j (hag j hj)
  rcases scan_cases ub c1 a1 a with hall | ⟨i, hi, hmiss, hmatch⟩ | ⟨i, hi, hmiss, hm, hr⟩
  · have hall2 : ∀ j, j < NUM_PMP → missesAt ub c2 a2 a j = true := by
      intro j hj
      rw [← hmissEq j hj]
      exact hall j hj
    have hany : anyEnabledAt c1 NUM_PMP = anyEnabledAt c2 NUM_PMP :=
      anyEnabledAt_congr c1 c2 NUM_PMP (fun j hj => (hag j hj j (le_refl j)).1)
    rw [access_of_no_match ub c1 a1 a p.toChar o.toChar hall, hany] at hallowed
    rw [access_of_no_match ub c2 a2 a p.toChar o.toChar hall2]
    exact hallowed
  · have hmiss2 : ∀ j, j < i → missesAt ub c2 a2 a j = true := by
      intro j hj
      rw [← hmissEq j (by omega)]
      exact hmiss j hj
    have hmatch2 : matchesAt ub c2 a2 a i = true := by
      rw [← matchesAt_congr ub c1 a1 c2 a2 a i (hag i hi)]
      exact hmatch
    rw [access_of_first_match ub c1 a1 a p.toChar o.toChar i hi hmiss hmatch,
      permit_eq] at hallowed
    rw [access_of_first_match ub c2 a2 a p.toChar o.toChar i hi hmiss2 hmatch2, permit_eq,
      ← (hsame i hi).2.2.2]
    have hbit := hgrant i hi o.bit o.bit_lt
    revert hallowed hbit
    cases (c1 i).testBit 7 <;> cases (c1 i).testBit o.bit <;> cases (c2 i).testBit o.bit <;>
      cases p <;> simp
  · rw [access_of_first_undefined ub c1 a1 a p.toChar o.toChar i hi hmiss hm hr] at hallowed
    exact absurd hallowed (by simp)

/-- Adding the write bit to a read-only NA4 entry keeps the User read
allowed. -/
theorem granting_bits_is_monotone_witness :
    (∀ i, i < NUM_PMP → tableOf [0x2000] i = tableOf [0x2000] i ∧
      (tableOf [0x11] i).testBit 3 = (tableOf [0x13] i).testBit 3 ∧
      (tableOf [0x11] i).testBit 4 = (tableOf [0x13] i).testBit 4 ∧
      (tableOf [0x11] i).testBit 7 = (tableOf [0x13] i).testBit 7) ∧
    (∀ i, i < NUM_PMP → ∀ b, b < 3 →
      (tableOf [0x11] i).testBit b = true → (tableOf [0x13] i).testBit b = true) ∧
    access undefinedShift (tableOf [0x11]) (tableOf [0x2000]) 0x2000
      Priv.U.toChar Op.R.toChar = some Verdict.Allowed ∧
    access undefinedShift (tableOf [0x13]) (tableOf [0x2000]) 0x2000
      Priv.U.toChar Op.R.toChar = some Verdict.Allowed :=
  ⟨by decide, by decide, by decide,
   granting_bits_is_monotone undefinedShift (tableOf [0x11]) (tableOf [0x2000])
     (tableOf [0x13]) (tableOf [0x2000]) 0x2000 Priv.U Op.R (by decide) (by decide)
     (by decide)⟩

end PmpCheck
